import Mathlib

/-!
Verification development for `bktree.py` (pybkt): a Burkhard-Keller tree with a
pluggable distance metric, two query variants (recursive `query` and iterative
`find`), JSON persistence, and a Levenshtein distance function.

Modelling conventions, matching the Python source:

* A tree node is the pair `(value, children)`; `children` is a dict keyed by
  the stringified distance `str(d)`.  Python dicts preserve insertion order
  and have unique keys, so `children` is modelled as an association list
  `List (Nat × Node α)` with new keys appended at the end.  Keys are modelled
  as `Nat` rather than `String`: every write uses `str(d)` for a non-negative
  integer `d`, and every read converts back (`children.get(str(i))` in
  `add_word`/`query`, `int(d)` in `find`); decimal stringification of natural
  numbers is injective and is modelled explicitly by `natStr`/`parseNatStr`
  below, with the round trip proved in `parseNatStr_natStr`.
* `self.tree` is `None` or a node, hence `Tree α := Option (Node α)`.
* The metric is a parameter `dist : α → α → Nat` (the source passes
  `distance_func` at construction; its documented contract is a metric).
* Python `sorted` / `list.sort` are stable; both are modelled by
  `List.insertionSort`, which is stable as well.
* A Python runtime error (TypeError on unpacking `None`, StopIteration) is
  modelled by `Option`/`Except` error results.
-/

namespace PyBKT

/-- A BK-tree node: the stored value together with the children mapping,
keyed by distance (see the modelling note on keys above). -/
inductive Node (α : Type) : Type where
  | node : α → List (Nat × Node α) → Node α

/-- The field `self.tree`: `None` for the empty tree, otherwise the root node. -/
abbrev Tree (α : Type) := Option (Node α)

/-- The stored value of a node. -/
def Node.value {α : Type} : Node α → α
  | .node p _ => p

/-- The children association list of a node. -/
def Node.children {α : Type} : Node α → List (Nat × Node α)
  | .node _ cs => cs

mutual
/-- All values stored in the subtree rooted at a node (root value first). -/
def Node.values {α : Type} : Node α → List α
  | .node p cs => p :: valuesL cs

/-- All values stored under a children list, in list order. -/
def valuesL {α : Type} : List (Nat × Node α) → List α
  | [] => []
  | (_, c) :: rest => c.values ++ valuesL rest
end

/-- All values stored in a tree (empty list for the empty tree). -/
def treeValues {α : Type} : Tree α → List α
  | none => []
  | some t => t.values

/-- Lookup `children.get(str(d))` for a natural-number distance `d`:
first (and, with unique keys, only) entry whose key is `d`. -/
def lookupChild {α : Type} (cs : List (Nat × Node α)) (d : Nat) : Option (Node α) :=
  match cs with
  | [] => none
  | (k, c) :: rest => if k = d then some c else lookupChild rest d

/-- Lookup `children.get(str(i))` for a Python `int` `i` that may be negative:
no stored key (always `str` of a non-negative distance) matches a negative `i`. -/
def lookupChildZ {α : Type} (cs : List (Nat × Node α)) (i : Int) : Option (Node α) :=
  match cs with
  | [] => none
  | (k, c) :: rest => if (k : Int) = i then some c else lookupChildZ rest i

mutual
/-- The loop body of `add_word` from a given node: compute
`distance = distance_func(word, parent)`; if the key is free, store the new
leaf there (dict insertion appends); otherwise descend into the existing
child and repeat. -/
def addToNode {α : Type} (dist : α → α → Nat) (w : α) : Node α → Node α
  | .node p cs => .node p (addToChildren dist w (dist w p) cs)

/-- Helper realising `children.get(str(distance))` followed by either the
insertion `children[str(distance)] = (word, {})` or the descent. -/
def addToChildren {α : Type} (dist : α → α → Nat) (w : α) (d : Nat) :
    List (Nat × Node α) → List (Nat × Node α)
  | [] => [(d, .node w [])]
  | (k, c) :: rest =>
      if k = d then (k, addToNode dist w c) :: rest
      else (k, c) :: addToChildren dist w d rest
end

/-- Model of `BKTree.add_word`: on the empty tree install the root, otherwise walk. -/
def add_word {α : Type} (dist : α → α → Nat) (t : Tree α) (w : α) : Tree α :=
  match t with
  | none => some (.node w [])
  | some nd => some (addToNode dist w nd)

/-- The `words` argument of the constructor.  Python distinguishes sized
sources (a list: falsy when empty) from iterators (always truthy, even when
exhausted); both produce the same sequence of words. -/
inductive Words (α : Type) : Type where
  | ofList : List α → Words α
  | ofIter : List α → Words α

/-- Python truthiness of the word source: `if words and ...`. -/
def Words.truthy {α : Type} : Words α → Bool
  | .ofList l => !l.isEmpty
  | .ofIter _ => true

/-- The sequence of words produced by `iter(words)`. -/
def Words.seq {α : Type} : Words α → List α
  | .ofList l => l
  | .ofIter l => l

/-- Runtime error of the constructor: `next(it)` on an exhausted iterator. -/
inductive InitError : Type where
  | stopIteration : InitError
deriving DecidableEq

/-- Model of `BKTree.__init__`: `self.tree = None`; if `words` is truthy (and iterable),
take the first word as root and `add_word` each remaining word in order. -/
def init {α : Type} (dist : α → α → Nat) (ws : Words α) : Except InitError (Tree α) :=
  if ws.truthy then
    match ws.seq with
    | [] => .error .stopIteration
    | w :: rest => .ok (rest.foldl (add_word dist) (some (.node w [])))
  else .ok none

/-- Building a tree from a plain (sized) list of words; for a list source the
constructor never raises. -/
def ofList {α : Type} (dist : α → α → Nat) : List α → Tree α
  | [] => none
  | w :: rest => rest.foldl (add_word dist) (some (.node w []))

/-- Python `range(a, b)` over integers. -/
def intRange (a b : Int) : List Int :=
  (List.range (b - a).toNat).map (fun (j : Nat) => a + (j : Int))

theorem sizeOf_lookupChildZ {α : Type} {cs : List (Nat × Node α)} {i : Int}
    {c : Node α} (h : lookupChildZ cs i = some c) : sizeOf c < sizeOf cs := by
  induction cs with
  | nil => simp [lookupChildZ] at h
  | cons kc rest ih =>
      obtain ⟨k, c'⟩ := kc
      rw [lookupChildZ] at h
      split at h
      · cases h; simp; omega
      · have := ih h; simp; omega

/-- The local recursive function `rec` inside `BKTree.query`: record the node
value when within radius `n`, then recurse into every child reachable through
`children.get(str(i))` for `i` in `range(distance - n, distance + n + 1)`. -/
def queryRec {α : Type} (dist : α → α → Nat) (word : α) (n : Nat) : Node α → List (Nat × α)
  | .node p cs =>
    let d := dist word p
    (if d ≤ n then [(d, p)] else []) ++
      (intRange ((d : Int) - (n : Int)) ((d : Int) + (n : Int) + 1)).flatMap (fun i =>
        match h : lookupChildZ cs i with
        | some child => queryRec dist word n child
        | none => [])
termination_by t => sizeOf t
decreasing_by
  have := sizeOf_lookupChildZ h
  simp
  omega

/-- Python tuple comparison `(d1, w1) <= (d2, w2)` used by `sorted` on the
result pairs: lexicographic. -/
def pairLE {α : Type} [LinearOrder α] (x y : Nat × α) : Prop :=
  x.1 < y.1 ∨ (x.1 = y.1 ∧ x.2 ≤ y.2)

instance {α : Type} [LinearOrder α] : DecidableRel (pairLE (α := α)) := by
  intro x y
  unfold pairLE
  infer_instance

instance {α : Type} [LinearOrder α] : IsTotal (Nat × α) pairLE := by
  constructor
  intro x y
  rcases Nat.lt_trichotomy x.1 y.1 with h | h | h
  · exact Or.inl (Or.inl h)
  · rcases le_total x.2 y.2 with h2 | h2
    · exact Or.inl (Or.inr ⟨h, h2⟩)
    · exact Or.inr (Or.inr ⟨h.symm, h2⟩)
  · exact Or.inr (Or.inl h)

instance {α : Type} [LinearOrder α] : IsTrans (Nat × α) pairLE := by
  constructor
  rintro x y z (h1 | ⟨h1, h1b⟩) (h2 | ⟨h2, h2b⟩)
  · exact Or.inl (h1.trans h2)
  · exact Or.inl (h2 ▸ h1)
  · exact Or.inl (h1 ▸ h2)
  · exact Or.inr ⟨h1.trans h2, h1b.trans h2b⟩

/-- Python `sorted(...)` on the list of `(distance, word)` tuples: a stable sort under
lexicographic tuple comparison. -/
def sortPairs {α : Type} [LinearOrder α] (l : List (Nat × α)) : List (Nat × α) :=
  List.insertionSort pairLE l

/-- Model of `BKTree.query`.  The body runs `rec(self.tree)` unconditionally, so on the
empty tree (`self.tree is None`) unpacking `p_word, children = parent` raises a
TypeError, modelled by `none`. -/
def query {α : Type} [LinearOrder α] (dist : α → α → Nat) (word : α) (n : Nat) :
    Tree α → Option (List (Nat × α))
  | none => none
  | some t => some (sortPairs (queryRec dist word n t))

/-- The generator `(c for d, c in children.items() if lower <= int(d) <= upper)`
feeding `candidates.extend` in `BKTree.find` (the `if children:` guard is a
no-op: on an empty dict the generator is empty anyway). -/
def childrenInRange {α : Type} (lower upper : Int) (cs : List (Nat × Node α)) :
    List (Node α) :=
  (cs.filter (fun kc => decide (lower ≤ (kc.1 : Int)) && decide ((kc.1 : Int) ≤ upper))).map
    Prod.snd

theorem sizeOf_append_list {α : Type} [SizeOf α] (l₁ l₂ : List α) :
    sizeOf (l₁ ++ l₂) + 1 = sizeOf l₁ + sizeOf l₂ := by
  induction l₁ with
  | nil => simp; omega
  | cons a rest ih => simp; omega

theorem sizeOf_childrenInRange_le {α : Type} [SizeOf α] (lower upper : Int)
    (cs : List (Nat × Node α)) : sizeOf (childrenInRange lower upper cs) ≤ sizeOf cs := by
  induction cs with
  | nil => simp [childrenInRange]
  | cons kc rest ih =>
      obtain ⟨k, c⟩ := kc
      simp only [childrenInRange, List.filter_cons] at ih ⊢
      split
      · simp only [List.map_cons, List.cons.sizeOf_spec, Prod.mk.sizeOf_spec]
        omega
      · simp only [List.cons.sizeOf_spec, Prod.mk.sizeOf_spec]
        omega

/-- The `while candidates:` loop of `BKTree.find`: pop the front of the deque,
record the candidate if within `n`, and extend the deque at the back with the
children whose (parsed) key lies in `[distance - n, distance + n]`. -/
def findLoop {α : Type} (dist : α → α → Nat) (item : α) (n : Nat) :
    List (Node α) → List (Nat × α)
  | [] => []
  | .node c cs :: rest =>
      let d := dist c item
      (if d ≤ n then [(d, c)] else []) ++
        findLoop dist item n (rest ++ childrenInRange ((d : Int) - (n : Int)) ((d : Int) + (n : Int)) cs)
termination_by queue => sizeOf queue
decreasing_by
  have h1 := sizeOf_append_list rest
    (childrenInRange ((dist c item : Int) - (n : Int)) ((dist c item : Int) + (n : Int)) cs)
  have h2 := sizeOf_childrenInRange_le ((dist c item : Int) - (n : Int))
    ((dist c item : Int) + (n : Int)) cs
  simp at *
  omega

/-- Key comparison used by `found.sort(key=itemgetter(0))`. -/
def fstLE {α : Type} (x y : Nat × α) : Prop := x.1 ≤ y.1

instance {α : Type} : DecidableRel (fstLE (α := α)) := by
  intro x y
  unfold fstLE
  infer_instance

instance {α : Type} : IsTotal (Nat × α) fstLE :=
  ⟨fun x y => Nat.le_total x.1 y.1⟩

instance {α : Type} : IsTrans (Nat × α) fstLE :=
  ⟨fun _ _ _ h1 h2 => Nat.le_trans h1 h2⟩

/-- Model of `BKTree.find`: empty tree short-circuits to `[]`; otherwise run the
breadth-first loop seeded with the root and stably sort by distance. -/
def find {α : Type} (dist : α → α → Nat) (item : α) (n : Nat) : Tree α → List (Nat × α)
  | none => []
  | some t => List.insertionSort fstLE (findLoop dist item n [t])

/-- One iteration of the Levenshtein DP loop (`for s in source:`), operating on
the rolling row exactly as the numpy code does:
`current_row = previous_row + 1`, then the vectorised substitution-or-match
minimum against `previous_row[:-1] + (target != s)`, then the vectorised
deletion minimum against `current_row[0:-1] + 1` (computed from the row state
after the substitution step, before assignment). -/
def levLoop (target : List Char) (previous_row : List Nat) (s : Char) : List Nat :=
  let row1 := previous_row.map (· + 1)
  let row2 :=
    match row1 with
    | [] => []
    | c :: tail =>
        c :: tail.zipWith min
          (previous_row.dropLast.zipWith (fun p t => p + (if t = s then 0 else 1)) target)
  match row2 with
  | [] => []
  | c :: tail => c :: tail.zipWith min ((c :: tail).dropLast.map (· + 1))

/-- The main body of `levenshtein`, assuming `len(source) >= len(target)`:
return `len(source)` when the target is empty, otherwise run the DP over the
initial row `arange(target.size + 1)` and return the last entry. -/
def levAux (source target : List Char) : Nat :=
  if target.length = 0 then source.length
  else (source.foldl (levLoop target) (List.range (target.length + 1))).getLastD 0

/-- Model of `levenshtein(source, target)`: swap so the outer loop runs over the longer
string, then run `levAux`. -/
def levenshtein (source target : String) : Nat :=
  if source.data.length < target.data.length then levAux target.data source.data
  else levAux source.data target.data

/-- Python `str(k)` for a non-negative integer: decimal digits (`"0"` for zero). -/
def natStr (k : Nat) : String :=
  if k = 0 then "0" else ⟨((Nat.digits 10 k).reverse.map Nat.digitChar)⟩

/-- The numeric value of a decimal digit character, `none` otherwise. -/
def digitVal (c : Char) : Option Nat :=
  if 48 ≤ c.toNat ∧ c.toNat ≤ 57 then some (c.toNat - 48) else none

/-- Python `int(s)` restricted to non-negative decimals (the only strings the tree
ever stores as keys): parse all characters as digits. -/
def parseNatStr (s : String) : Option Nat :=
  match s.data with
  | [] => none
  | l => (l.mapM digitVal).map (fun ds => Nat.ofDigits 10 ds.reverse)

/-- The JSON values produced by `json.dumps(self.tree)`: the tree is nested
tuples/dicts of strings, so only `null`, strings, arrays and string-keyed
objects occur. -/
inductive Json : Type where
  | null : Json
  | str : String → Json
  | arr : List Json → Json
  | obj : List (String × Json) → Json

mutual
/-- Serialisation of a node: the tuple `(value, children)` becomes a JSON
array of the value and the string-keyed children object. -/
def dumpNode : Node String → Json
  | .node p cs => .arr [.str p, .obj (dumpChildren cs)]

/-- Serialisation of a children dict, preserving order and string keys. -/
def dumpChildren : List (Nat × Node String) → List (String × Json)
  | [] => []
  | (k, c) :: rest => (natStr k, dumpNode c) :: dumpChildren rest
end

/-- Serialisation `json.dumps(self.tree)`: `None` serialises to `null`. -/
def dumpTree : Tree String → Json
  | none => Json.null
  | some t => dumpNode t

mutual
/-- Reading a node back from its JSON form.  (In Python the loaded value is a
list and keys stay strings; every subsequent use converts keys with
`str`/`int`, which is what parsing them to `Nat` here models.) -/
def parseNode : Json → Option (Node String)
  | .arr [.str p, .obj kvs] =>
      match parseChildren kvs with
      | some cs => some (.node p cs)
      | none => none
  | _ => none

/-- Reading back a children object, parsing each decimal key. -/
def parseChildren : List (String × Json) → Option (List (Nat × Node String))
  | [] => some []
  | (s, j) :: rest =>
      match parseNatStr s, parseNode j, parseChildren rest with
      | some k, some c, some cs => some ((k, c) :: cs)
      | _, _, _ => none
end

/-- Deserialisation `json.loads` of a stored tree followed by the key conversions the query
paths perform. -/
def parseTree : Json → Option (Tree String)
  | .null => some none
  | j =>
      match parseNode j with
      | some t => some (some t)
      | none => none

/-- Model of `BKTree.query` as a method acting on the object state `self.tree`
(reads the state, never writes it: the body only calls `children.get`). -/
def queryMethod {α : Type} [LinearOrder α] (dist : α → α → Nat) (word : α) (n : Nat) :
    StateM (Tree α) (Option (List (Nat × α))) := do
  let t ← get
  pure (query dist word n t)

/-- Model of `BKTree.find` as a method acting on `self.tree` (reads the state, never
writes it: the body only reads `children.items()` into a local deque). -/
def findMethod {α : Type} (dist : α → α → Nat) (item : α) (n : Nat) :
    StateM (Tree α) (List (Nat × α)) := do
  let t ← get
  pure (find dist item n t)

/-- Model of `BKTree.add_word` as a method: reassigns `self.tree` on the empty tree and
mutates the node graph otherwise. -/
def addWordMethod {α : Type} (dist : α → α → Nat) (w : α) : StateM (Tree α) Unit := do
  let t ← get
  set (add_word dist t w)

/-- Trees reachable by the operations of the class: any constructor call
(`init`, covering both the empty and the seeded form) followed by any
sequence of `add_word` calls. -/
inductive Reachable {α : Type} (dist : α → α → Nat) : Tree α → Prop where
  | ofInit (ws : Words α) (t : Tree α) : init dist ws = .ok t → Reachable dist t
  | step (t : Tree α) (w : α) : Reachable dist t → Reachable dist (add_word dist t w)

/-- The BK-tree structural invariant: at every node the children keys are
distinct (a dict), and a child keyed `k` stores, in its whole subtree, only
values at distance exactly `k` from this node (each was routed here by
`add_word` computing exactly that distance). -/
inductive Inv {α : Type} (dist : α → α → Nat) : Node α → Prop where
  | mk (p : α) (cs : List (Nat × Node α)) :
      (cs.map Prod.fst).Nodup →
      (∀ kc ∈ cs, ∀ v ∈ Node.values kc.2, dist v p = kc.1) →
      (∀ kc ∈ cs, Inv dist kc.2) →
      Inv dist (.node p cs)

/-- The invariant lifted to a possibly empty tree. -/
def TreeInv {α : Type} (dist : α → α → Nat) : Tree α → Prop
  | none => True
  | some t => Inv dist t

/-- The spec child-key invariant as stated (direct children only):
`distance(N.value, C.value) == d` for every child `C` keyed `d` of `N`. -/
inductive EdgeInv {α : Type} (dist : α → α → Nat) : Node α → Prop where
  | mk (p : α) (cs : List (Nat × Node α)) :
      (∀ kc ∈ cs, dist p (Node.value kc.2) = kc.1) →
      (∀ kc ∈ cs, EdgeInv dist kc.2) →
      EdgeInv dist (.node p cs)

theorem sizeOf_snd_lt {α : Type} {kc : Nat × Node α} {cs : List (Nat × Node α)}
    (h : kc ∈ cs) : sizeOf kc.2 < sizeOf cs := by
  have h1 := List.sizeOf_lt_of_mem h
  obtain ⟨k, c⟩ := kc
  simp at h1 ⊢
  omega

/-- Structural strong induction on BK-tree nodes: to prove a property of every
node it suffices to prove it for a node assuming it for all children. -/
theorem Node.strongInd {α : Type} {P : Node α → Prop}
    (h : ∀ p cs, (∀ kc ∈ cs, P kc.2) → P (.node p cs)) : ∀ t, P t
  | .node p cs => h p cs (fun kc hm => Node.strongInd h kc.2)
termination_by t => sizeOf t
decreasing_by
  have := sizeOf_snd_lt hm
  simp
  omega

theorem valuesL_eq {α : Type} (cs : List (Nat × Node α)) :
    valuesL cs = cs.flatMap (fun kc => kc.2.values) := by
  induction cs with
  | nil => simp [valuesL]
  | cons kc rest ih => obtain ⟨k, c⟩ := kc; simp [valuesL, ih]

theorem values_node {α : Type} (p : α) (cs : List (Nat × Node α)) :
    (Node.node p cs).values = p :: cs.flatMap (fun kc => kc.2.values) := by
  rw [Node.values, valuesL_eq]

theorem value_mem_values {α : Type} (t : Node α) : t.value ∈ t.values := by
  cases t with
  | node p cs => rw [values_node]; exact List.mem_cons_self _ _

/-- Helper for `values_addToNode`: inserting through a children list adds
exactly the new word to the stored multiset. -/
theorem valuesL_addToChildren {α : Type} (dist : α → α → Nat) (w : α) (d : Nat)
    (cs : List (Nat × Node α))
    (IH : ∀ kc ∈ cs, (addToNode dist w kc.2).values.Perm (w :: kc.2.values)) :
    (valuesL (addToChildren dist w d cs)).Perm (w :: valuesL cs) := by
  induction cs with
  | nil => simp [addToChildren, valuesL, Node.values]
  | cons kc rest ih =>
      obtain ⟨k, c⟩ := kc
      rw [addToChildren]
      split
      · rw [valuesL, valuesL]
        exact (IH (k, c) (List.mem_cons_self _ _)).append_right _
      · rw [valuesL, valuesL]
        have h2 := ih (fun kc hm => IH kc (List.mem_cons_of_mem _ hm))
        exact (h2.append_left _).trans List.perm_middle

theorem values_addToNode {α : Type} (dist : α → α → Nat) (w : α) (t : Node α) :
    (addToNode dist w t).values.Perm (w :: t.values) := by
  induction t using Node.strongInd with
  | _ p cs IH =>
      rw [addToNode, Node.values, Node.values]
      exact ((valuesL_addToChildren dist w (dist w p) cs IH).cons p).trans
        (List.Perm.swap w p _)

/-- Insertion always happens: the stored multiset after `add_word` is the
old one together with the new word. -/
theorem treeValues_add_word {α : Type} (dist : α → α → Nat) (t : Tree α) (w : α) :
    (treeValues (add_word dist t w)).Perm (w :: treeValues t) := by
  cases t with
  | none => simp [add_word, treeValues, Node.values, valuesL]
  | some nd => simpa [add_word, treeValues] using values_addToNode dist w nd

theorem keys_addToChildren_mem {α : Type} {dist : α → α → Nat} {w : α} {d : Nat}
    {cs : List (Nat × Node α)} (h : d ∈ cs.map Prod.fst) :
    (addToChildren dist w d cs).map Prod.fst = cs.map Prod.fst := by
  induction cs with
  | nil => simp at h
  | cons kc rest ih =>
      obtain ⟨k, c⟩ := kc
      rw [addToChildren]
      split
      · simp
      · rename_i hne
        simp only [List.map_cons] at h ⊢
        rcases List.mem_cons.mp h with h1 | h1
        · exact absurd h1.symm hne
        · rw [ih h1]

theorem keys_addToChildren_not_mem {α : Type} {dist : α → α → Nat} {w : α} {d : Nat}
    {cs : List (Nat × Node α)} (h : d ∉ cs.map Prod.fst) :
    (addToChildren dist w d cs).map Prod.fst = cs.map Prod.fst ++ [d] := by
  induction cs with
  | nil => simp [addToChildren]
  | cons kc rest ih =>
      obtain ⟨k, c⟩ := kc
      rw [addToChildren]
      split
      · rename_i he
        exact absurd (by simp [he]) h
      · simp only [List.map_cons, List.cons_append]
        rw [ih (fun hm => h (by simp [hm]))]

theorem nodup_keys_addToChildren {α : Type} {dist : α → α → Nat} {w : α} {d : Nat}
    {cs : List (Nat × Node α)} (h : (cs.map Prod.fst).Nodup) :
    ((addToChildren dist w d cs).map Prod.fst).Nodup := by
  by_cases hd : d ∈ cs.map Prod.fst
  · rw [keys_addToChildren_mem hd]; exact h
  · rw [keys_addToChildren_not_mem hd]
    simp [List.nodup_append, h, hd]

theorem addToChildren_conditions {α : Type} (dist : α → α → Nat) (w p : α)
    (cs : List (Nat × Node α))
    (hvals : ∀ kc ∈ cs, ∀ v ∈ Node.values kc.2, dist v p = kc.1)
    (IHadd : ∀ kc ∈ cs, Inv dist (addToNode dist w kc.2))
    (hinvs : ∀ kc ∈ cs, Inv dist kc.2) :
    (∀ kc ∈ addToChildren dist w (dist w p) cs, ∀ v ∈ Node.values kc.2, dist v p = kc.1) ∧
      (∀ kc ∈ addToChildren dist w (dist w p) cs, Inv dist kc.2) := by
  induction cs with
  | nil =>
      constructor
      · intro kc hm v hv
        rw [addToChildren] at hm
        rcases List.mem_singleton.mp hm with rfl
        simp only [Node.values, valuesL] at hv
        rcases List.mem_singleton.mp hv with rfl
        rfl
      · intro kc hm
        rw [addToChildren] at hm
        rcases List.mem_singleton.mp hm with rfl
        exact Inv.mk w [] (by simp) (by simp) (by simp)
  | cons kc0 rest ih =>
      obtain ⟨k, c⟩ := kc0
      have ih2 := ih (fun kc hm => hvals kc (List.mem_cons_of_mem _ hm))
        (fun kc hm => IHadd kc (List.mem_cons_of_mem _ hm))
        (fun kc hm => hinvs kc (List.mem_cons_of_mem _ hm))
      rw [addToChildren]
      split
      · rename_i he
        constructor
        · intro kc hm v hv
          rcases List.mem_cons.mp hm with rfl | h1
          · have hv2 := (values_addToNode dist w c).mem_iff.mp hv
            rcases List.mem_cons.mp hv2 with rfl | h2
            · exact he ▸ rfl
            · exact hvals (k, c) (List.mem_cons_self _ _) v h2
          · exact hvals kc (List.mem_cons_of_mem _ h1) v hv
        · intro kc hm
          rcases List.mem_cons.mp hm with rfl | h1
          · exact IHadd (k, c) (List.mem_cons_self _ _)
          · exact hinvs kc (List.mem_cons_of_mem _ h1)
      · constructor
        · intro kc hm v hv
          rcases List.mem_cons.mp hm with rfl | h1
          · exact hvals (k, c) (List.mem_cons_self _ _) v hv
          · exact ih2.1 kc h1 v hv
        · intro kc hm
          rcases List.mem_cons.mp hm with rfl | h1
          · exact hinvs (k, c) (List.mem_cons_self _ _)
          · exact ih2.2 kc h1

/-- Insertion preserves the BK-tree invariant. -/
theorem Inv_addToNode {α : Type} (dist : α → α → Nat) (w : α) :
    ∀ t, Inv dist t → Inv dist (addToNode dist w t) := by
  intro t
  induction t using Node.strongInd with
  | _ p cs IH =>
      intro h
      cases h with
      | mk _ _ hnodup hvals hinvs =>
          rw [addToNode]
          have hconds := addToChildren_conditions dist w p cs hvals
            (fun kc hm => IH kc hm (hinvs kc hm)) hinvs
          exact Inv.mk p _ (nodup_keys_addToChildren hnodup) hconds.1 hconds.2

theorem TreeInv_add_word {α : Type} (dist : α → α → Nat) (t : Tree α) (w : α)
    (h : TreeInv dist t) : TreeInv dist (add_word dist t w) := by
  cases t with
  | none =>
      simp only [add_word, TreeInv]
      exact Inv.mk w [] (by simp) (by simp) (by simp)
  | some nd =>
      simp only [add_word, TreeInv] at h ⊢
      exact Inv_addToNode dist w nd h

theorem TreeInv_foldl {α : Type} (dist : α → α → Nat) (l : List α) (t : Tree α)
    (h : TreeInv dist t) : TreeInv dist (l.foldl (add_word dist) t) := by
  induction l generalizing t with
  | nil => exact h
  | cons w rest ih => exact ih _ (TreeInv_add_word dist t w h)

/-- Every tree reachable through the class operations satisfies the BK-tree
invariant. -/
theorem Reachable_TreeInv {α : Type} {dist : α → α → Nat} {t : Tree α}
    (h : Reachable dist t) : TreeInv dist t := by
  induction h with
  | ofInit ws t hinit =>
      rw [init] at hinit
      split at hinit
      · split at hinit
        · cases hinit
        · cases hinit
          exact TreeInv_foldl dist _ _ (Inv.mk _ [] (by simp) (by simp) (by simp))
      · cases hinit
        trivial
  | step t w _ ih => exact TreeInv_add_word dist t w ih

/-- Every pair produced by the recursive traversal is the exact distance from
the query word to the recorded value, and within the radius. -/
theorem mem_queryRec {α : Type} (dist : α → α → Nat) (word : α) (n : Nat) :
    ∀ t, ∀ pr ∈ queryRec dist word n t, pr.1 = dist word pr.2 ∧ pr.1 ≤ n := by
  intro t
  induction t using queryRec.induct dist word n with
  | _ p cs IH =>
      intro pr hpr
      rw [queryRec] at hpr
      rcases List.mem_append.mp hpr with h | h
      · by_cases hd : dist word p ≤ n
        · simp only [if_pos hd, List.mem_singleton] at h
          subst h
          exact ⟨rfl, hd⟩
        · simp [if_neg hd] at h
      · rcases List.mem_flatMap.mp h with ⟨i, _, hmem⟩
        split at hmem
        · rename_i child hc
          exact IH i child hc pr hmem
        · simp at hmem

/-- Every pair recorded by the breadth-first loop of `find` is the exact
distance (in the `distance_func(candidate, item)` argument order of the
source) and within the radius. -/
theorem mem_findLoop {α : Type} (dist : α → α → Nat) (item : α) (n : Nat) :
    ∀ queue, ∀ pr ∈ findLoop dist item n queue, pr.1 = dist pr.2 item ∧ pr.1 ≤ n := by
  intro queue
  induction queue using findLoop.induct dist item n with
  | case1 => intro pr hpr; simp [findLoop] at hpr
  | case2 c cs rest d IH =>
      intro pr hpr
      rw [findLoop] at hpr
      rcases List.mem_append.mp hpr with h | h
      · by_cases hd : dist c item ≤ n
        · simp only [if_pos hd, List.mem_singleton] at h
          subst h
          exact ⟨rfl, hd⟩
        · simp [if_neg hd] at h
      · exact IH pr h

/-- With a symmetric metric, the strong invariant implies the child-key
invariant exactly as the spec states it: `distance(N.value, C.value) == d`. -/
theorem Inv_EdgeInv {α : Type} {dist : α → α → Nat}
    (hsym : ∀ a b, dist a b = dist b a) :
    ∀ t, Inv dist t → EdgeInv dist t := by
  intro t
  induction t using Node.strongInd with
  | _ p cs IH =>
      intro h
      cases h with
      | mk _ _ hnodup hvals hinvs =>
          refine EdgeInv.mk p cs (fun kc hm => ?_) (fun kc hm => IH kc hm (hinvs kc hm))
          rw [hsym]
          exact hvals kc hm (Node.value kc.2) (value_mem_values kc.2)

theorem mem_intRange {a b i : Int} : i ∈ intRange a b ↔ a ≤ i ∧ i < b := by
  rw [intRange, List.mem_map]
  constructor
  · rintro ⟨j, hj, rfl⟩
    rw [List.mem_range] at hj
    omega
  · intro h
    refine ⟨(i - a).toNat, ?_, ?_⟩
    · rw [List.mem_range]; omega
    · omega

theorem nodup_intRange (a b : Int) : (intRange a b).Nodup := by
  rw [intRange]
  refine List.Nodup.map ?_ (List.nodup_range _)
  intro x y h
  have h2 : a + (x : Int) = a + (y : Int) := h
  omega

theorem Inv.nodup_keys {α : Type} {dist : α → α → Nat} {p : α}
    {cs : List (Nat × Node α)} (h : Inv dist (.node p cs)) : (cs.map Prod.fst).Nodup := by
  cases h with
  | mk _ _ hnodup _ _ => exact hnodup

theorem Inv.child {α : Type} {dist : α → α → Nat} {p : α}
    {cs : List (Nat × Node α)} (h : Inv dist (.node p cs)) : ∀ kc ∈ cs, Inv dist kc.2 := by
  cases h with
  | mk _ _ _ _ hinvs => exact hinvs

theorem Inv.dists {α : Type} {dist : α → α → Nat} {p : α}
    {cs : List (Nat × Node α)} (h : Inv dist (.node p cs)) :
    ∀ kc ∈ cs, ∀ v ∈ Node.values kc.2, dist v p = kc.1 := by
  cases h with
  | mk _ _ _ hvals _ => exact hvals

/-- Rewriting the recursive traversal: iterating `i` over the pruning range and
looking each value up in the children dict visits exactly the children whose
key parses into the range. -/
theorem queryRec_filterMap {α : Type} (dist : α → α → Nat) (word : α) (n : Nat) (p : α)
    (cs : List (Nat × Node α)) :
    queryRec dist word n (.node p cs) =
      (if dist word p ≤ n then [(dist word p, p)] else []) ++
        ((intRange ((dist word p : Int) - (n : Int)) ((dist word p : Int) + (n : Int) + 1)).filterMap
            (lookupChildZ cs)).flatMap (queryRec dist word n) := by
  rw [queryRec]
  congr 1
  generalize intRange ((dist word p : Int) - (n : Int)) ((dist word p : Int) + (n : Int) + 1) = l
  induction l with
  | nil => simp
  | cons i rest ih =>
      simp only [List.flatMap_cons, List.filterMap_cons]
      cases hli : lookupChildZ cs i with
      | none => simp [ih]
      | some child => simp [List.flatMap_cons, ih]

/-- The bridge between the two child-selection styles: looking up every index
of a duplicate-free index list equals (up to permutation) filtering the
children on key membership, when the children keys are distinct. -/
theorem filterMap_lookupChildZ_perm {α : Type} :
    ∀ cs : List (Nat × Node α), (cs.map Prod.fst).Nodup →
      ∀ l : List Int, l.Nodup →
        (l.filterMap (lookupChildZ cs)).Perm
          ((cs.filter (fun kc => decide ((kc.1 : Int) ∈ l))).map Prod.snd) := by
  intro cs
  induction cs with
  | nil =>
      intro _ l _
      simp [lookupChildZ]
  | cons kc rest ih =>
      obtain ⟨k, c⟩ := kc
      intro hk l hl
      simp only [List.map_cons, List.nodup_cons] at hk
      obtain ⟨hknotin, hkrest⟩ := hk
      have hcast : ∀ m : Nat, m ≠ k → ((m : Int) = (k : Int)) → False := by
        intro m hm he
        exact hm (by exact_mod_cast he)
      by_cases hmem : (k : Int) ∈ l
      · have hperm1 := (List.perm_cons_erase hmem).filterMap (lookupChildZ ((k, c) :: rest))
        have hhead : lookupChildZ ((k, c) :: rest) (k : Int) = some c := by
          rw [lookupChildZ]; simp
        have htail : (l.erase (k : Int)).filterMap (lookupChildZ ((k, c) :: rest)) =
            (l.erase (k : Int)).filterMap (lookupChildZ rest) := by
          refine List.filterMap_congr ?_
          intro i hi
          have hne : i ≠ (k : Int) := ((hl.mem_erase_iff).mp hi).1
          rw [lookupChildZ, if_neg (fun he => hne he.symm)]
        have hstep : (((k : Int) :: l.erase (k : Int)).filterMap
            (lookupChildZ ((k, c) :: rest))) =
            c :: ((l.erase (k : Int)).filterMap (lookupChildZ rest)) := by
          rw [List.filterMap_cons, hhead, htail]
        have hfilter : ((k, c) :: rest).filter (fun kc => decide ((kc.1 : Int) ∈ l)) =
            (k, c) :: rest.filter (fun kc => decide ((kc.1 : Int) ∈ l)) := by
          rw [List.filter_cons, if_pos (by simpa using hmem)]
        have hfcongr : rest.filter (fun kc => decide ((kc.1 : Int) ∈ l)) =
            rest.filter (fun kc => decide ((kc.1 : Int) ∈ l.erase (k : Int))) := by
          refine List.filter_congr ?_
          intro kc hkc
          have hnek : kc.1 ≠ k := by
            intro he
            exact hknotin (he ▸ List.mem_map_of_mem Prod.fst hkc)
          have hiff : ((kc.1 : Int) ∈ l) ↔ ((kc.1 : Int) ∈ l.erase (k : Int)) := by
            rw [hl.mem_erase_iff]
            constructor
            · intro hin
              exact ⟨fun he => hcast kc.1 hnek he, hin⟩
            · intro hin
              exact hin.2
          exact decide_eq_decide.mpr hiff
        rw [hfilter, List.map_cons, hfcongr]
        refine hperm1.trans ?_
        rw [hstep]
        exact (ih hkrest _ (hl.erase _)).cons c
      · have hcong : l.filterMap (lookupChildZ ((k, c) :: rest)) =
            l.filterMap (lookupChildZ rest) := by
          refine List.filterMap_congr ?_
          intro i hi
          have hne : (k : Int) ≠ i := fun he => hmem (he ▸ hi)
          rw [lookupChildZ, if_neg hne]
        have hfilter : ((k, c) :: rest).filter (fun kc => decide ((kc.1 : Int) ∈ l)) =
            rest.filter (fun kc => decide ((kc.1 : Int) ∈ l)) := by
          rw [List.filter_cons, if_neg (by simpa using hmem)]
        rw [hcong, hfilter]
        exact ih hkrest l hl

/-- With distinct children keys, the recursive traversal of a node is a
permutation of: the root hit followed by the recursive traversals of exactly
the children kept by the pruning window `[d - n, d + n]` of `find`. -/
theorem queryRec_perm {α : Type} (dist : α → α → Nat) (word : α) (n : Nat) (p : α)
    (cs : List (Nat × Node α)) (hnodup : (cs.map Prod.fst).Nodup) :
    (queryRec dist word n (.node p cs)).Perm
      ((if dist word p ≤ n then [(dist word p, p)] else []) ++
        (childrenInRange ((dist word p : Int) - (n : Int)) ((dist word p : Int) + (n : Int)) cs).flatMap
          (queryRec dist word n)) := by
  rw [queryRec_filterMap]
  refine List.Perm.append_left _ ?_
  refine ((filterMap_lookupChildZ_perm cs hnodup _ (nodup_intRange _ _)).flatMap_right _).trans ?_
  rw [childrenInRange]
  have hfc : cs.filter (fun kc => decide ((kc.1 : Int) ∈
        intRange ((dist word p : Int) - (n : Int)) ((dist word p : Int) + (n : Int) + 1))) =
      cs.filter (fun kc => decide ((dist word p : Int) - (n : Int) ≤ (kc.1 : Int)) &&
        decide ((kc.1 : Int) ≤ (dist word p : Int) + (n : Int))) := by
    refine List.filter_congr ?_
    intro kc _
    have hiff : ((kc.1 : Int) ∈
        intRange ((dist word p : Int) - (n : Int)) ((dist word p : Int) + (n : Int) + 1)) ↔
        ((dist word p : Int) - (n : Int) ≤ (kc.1 : Int) ∧
          (kc.1 : Int) ≤ (dist word p : Int) + (n : Int)) := by
      rw [mem_intRange]
      omega
    rw [decide_eq_decide.mpr hiff]
    · simp
    · infer_instance
  rw [hfc]

/-- With a symmetric metric and valid nodes in the queue, the breadth-first
loop of `find` collects the same multiset of pairs as running the recursive
traversal of `query` on every queued node. -/
theorem findLoop_perm {α : Type} {dist : α → α → Nat}
    (hsym : ∀ a b, dist a b = dist b a) (item : α) (n : Nat) :
    ∀ queue : List (Node α), (∀ t ∈ queue, Inv dist t) →
      (findLoop dist item n queue).Perm (queue.flatMap (queryRec dist item n)) := by
  intro queue
  induction queue using findLoop.induct dist item n with
  | case1 => intro _; simp [findLoop]
  | case2 c cs rest d IH =>
      intro hinv
      have hroot : Inv dist (.node c cs) := hinv _ (List.mem_cons_self _ _)
      have hrest : ∀ t ∈ rest, Inv dist t := fun t ht => hinv t (List.mem_cons_of_mem _ ht)
      have hkids : ∀ t ∈ childrenInRange ((dist c item : Int) - (n : Int))
          ((dist c item : Int) + (n : Int)) cs, Inv dist t := by
        intro t ht
        rw [childrenInRange] at ht
        rcases List.mem_map.mp ht with ⟨kc, hkc, rfl⟩
        exact hroot.child kc (List.mem_filter.mp hkc).1
      have hq : ∀ t ∈ rest ++ childrenInRange ((dist c item : Int) - (n : Int))
          ((dist c item : Int) + (n : Int)) cs, Inv dist t := by
        intro t ht
        rcases List.mem_append.mp ht with h | h
        exacts [hrest t h, hkids t h]
      rw [findLoop, List.flatMap_cons]
      have h1 : (findLoop dist item n (rest ++ childrenInRange ((dist c item : Int) - (n : Int))
          ((dist c item : Int) + (n : Int)) cs)).Perm
          (rest.flatMap (queryRec dist item n) ++
            (childrenInRange ((dist c item : Int) - (n : Int))
              ((dist c item : Int) + (n : Int)) cs).flatMap (queryRec dist item n)) :=
        (IH hq).trans (by rw [List.flatMap_append])
      have h2 := queryRec_perm dist item n c cs hroot.nodup_keys
      rw [hsym item c] at h2
      refine (List.Perm.append_left _ h1).trans ?_
      refine (List.Perm.append_left _ List.perm_append_comm).trans ?_
      rw [← List.append_assoc]
      exact h2.symm.append_right _

theorem sortPairs_sorted_fst {α : Type} [LinearOrder α] (l : List (Nat × α)) :
    ((sortPairs l).map Prod.fst).Sorted (· ≤ ·) := by
  have h := List.sorted_insertionSort pairLE l
  have h2 : List.Pairwise (fun x y : Nat × α => x.1 ≤ y.1) (List.insertionSort pairLE l) := by
    refine h.imp ?_
    intro a b hab
    rcases hab with hlt | ⟨heq, _⟩
    · exact le_of_lt hlt
    · exact le_of_eq heq
  rw [sortPairs]
  exact (List.pairwise_map).mpr h2

theorem find_sorted_fst {α : Type} (dist : α → α → Nat) (item : α) (n : Nat) (t : Tree α) :
    ((find dist item n t).map Prod.fst).Sorted (· ≤ ·) := by
  cases t with
  | none => simp [find, List.Sorted]
  | some nd =>
      rw [find]
      have h := List.sorted_insertionSort fstLE (findLoop dist item n [nd])
      exact (List.pairwise_map).mpr (h.imp (fun hab => hab))

theorem sum_map_filter_of_zero {γ : Type} (p : γ → Bool) (g : γ → Nat) (l : List γ)
    (h : ∀ x ∈ l, p x = false → g x = 0) :
    ((l.filter p).map g).sum = (l.map g).sum := by
  induction l with
  | nil => simp
  | cons a rest ih =>
      rw [List.filter_cons]
      have ih2 := ih (fun x hx hpx => h x (List.mem_cons_of_mem _ hx) hpx)
      cases hpa : p a with
      | true => simp [ih2]
      | false =>
          simp only [Bool.false_eq_true, if_false, List.map_cons, List.sum_cons]
          rw [h a (List.mem_cons_self _ _) hpa, ih2]
          omega

theorem perm_count {γ : Type} [BEq γ] {l₁ l₂ : List γ} (h : l₁.Perm l₂) (a : γ) :
    l₁.count a = l₂.count a := by
  unfold List.count
  exact h.countP_eq _

/-- Completeness at the multiset level: for a valid tree, every stored
occurrence of a value within the radius produces its own `(distance, value)`
hit in the recursive traversal (the pruning window never loses one). -/
theorem count_values_le_queryRec {α : Type} [DecidableEq α] {dist : α → α → Nat}
    (hsym : ∀ a b, dist a b = dist b a)
    (htri : ∀ a b c, dist a c ≤ dist a b + dist b c)
    (w v : α) (n : Nat) (hle : dist w v ≤ n) :
    ∀ t : Node α, Inv dist t →
      t.values.count v ≤ (queryRec dist w n t).count (dist w v, v) := by
  intro t
  induction t using Node.strongInd with
  | _ p cs IH =>
      intro hinv
      have hperm := queryRec_perm dist w n p cs hinv.nodup_keys
      rw [perm_count hperm (dist w v, v), values_node, List.count_cons, List.count_append]
      have hflat1 : (cs.flatMap (fun kc => kc.2.values)).count v =
          (cs.map (fun kc => kc.2.values.count v)).sum := by
        rw [List.count_flatMap]
        rfl
      rw [hflat1]
      have hflat2 : ((childrenInRange ((dist w p : Int) - (n : Int))
            ((dist w p : Int) + (n : Int)) cs).flatMap (queryRec dist w n)).count (dist w v, v) =
          ((cs.filter (fun kc => decide ((dist w p : Int) - (n : Int) ≤ (kc.1 : Int)) &&
              decide ((kc.1 : Int) ≤ (dist w p : Int) + (n : Int)))).map
            (fun kc => (queryRec dist w n kc.2).count (dist w v, v))).sum := by
        rw [childrenInRange, List.count_flatMap, List.map_map]
        rfl
      rw [hflat2]
      have hzero : ∀ kc ∈ cs,
          (fun kc : Nat × Node α => decide ((dist w p : Int) - (n : Int) ≤ (kc.1 : Int)) &&
            decide ((kc.1 : Int) ≤ (dist w p : Int) + (n : Int))) kc = false →
          kc.2.values.count v = 0 := by
        intro kc hkc hfalse
        rw [List.count_eq_zero]
        intro hv
        have hkey : dist v p = kc.1 := hinv.dists kc hkc v hv
        have hb1 : dist w p ≤ dist w v + dist v p := htri w v p
        have hb2 : dist v p ≤ dist w v + dist w p := by
          have := htri v w p
          rw [hsym v w] at this
          omega
        simp only [Bool.and_eq_false_iff, decide_eq_false_iff_not, not_le] at hfalse
        rcases hfalse with hf | hf <;> omega
      have hsum1 : (cs.map (fun kc => kc.2.values.count v)).sum =
          ((cs.filter (fun kc => decide ((dist w p : Int) - (n : Int) ≤ (kc.1 : Int)) &&
              decide ((kc.1 : Int) ≤ (dist w p : Int) + (n : Int)))).map
            (fun kc => kc.2.values.count v)).sum :=
        (sum_map_filter_of_zero _ _ cs hzero).symm
      rw [hsum1]
      have hsum2 : ((cs.filter (fun kc => decide ((dist w p : Int) - (n : Int) ≤ (kc.1 : Int)) &&
              decide ((kc.1 : Int) ≤ (dist w p : Int) + (n : Int)))).map
            (fun kc => kc.2.values.count v)).sum ≤
          ((cs.filter (fun kc => decide ((dist w p : Int) - (n : Int) ≤ (kc.1 : Int)) &&
              decide ((kc.1 : Int) ≤ (dist w p : Int) + (n : Int)))).map
            (fun kc => (queryRec dist w n kc.2).count (dist w v, v))).sum := by
        refine List.sum_le_sum ?_
        intro kc hkc
        have hmem : kc ∈ cs := (List.mem_filter.mp hkc).1
        exact IH kc hmem (hinv.child kc hmem)
      have hhit : (if p = v then 1 else 0) ≤
          (if dist w p ≤ n then [(dist w p, p)] else []).count (dist w v, v) := by
        by_cases hpv : p = v
        · subst hpv
          rw [if_pos rfl, if_pos hle]
          simp
        · rw [if_neg hpv]
          exact Nat.zero_le _
      have hcnt : (if (p == v) = true then 1 else 0) = (if p = v then 1 else 0) := by
        by_cases hpv : p = v <;> simp [hpv]
      omega

theorem qrDemo_cook : queryRec levenshtein "book" 1 (.node "cook" []) = [(1, "cook")] := by
  rw [queryRec_filterMap]
  norm_num [lookupChildZ]
  decide

theorem qrDemo_books : queryRec levenshtein "book" 1
    (.node "books" [(2, .node "cook" [])]) = [(1, "books"), (1, "cook")] := by
  rw [queryRec_filterMap]
  have h1 : levenshtein "book" "books" = 1 := by decide
  rw [h1]
  have hr : intRange (0 : Int) 3 = [0, 1, 2] := by decide
  norm_num [hr, lookupChildZ, List.filterMap_cons, List.flatMap_cons, qrDemo_cook]

theorem qrDemo_root : queryRec levenshtein "book" 1
    (.node "book" [(1, .node "books" [(2, .node "cook" [])]),
      (2, .node "booze" []), (4, .node "cake" [])]) =
    [(0, "book"), (1, "books"), (1, "cook")] := by
  rw [queryRec_filterMap]
  have h1 : levenshtein "book" "book" = 0 := by decide
  rw [h1]
  have hr : intRange (-1 : Int) 2 = [-1, 0, 1] := by decide
  norm_num [hr, lookupChildZ, List.filterMap_cons, List.flatMap_cons, qrDemo_books]

/-- The demo tree of the round-trip property, exactly as `BKTree(levenshtein,
["book","books","cook","booze","cake"])` builds it. -/
theorem ofList_demo : ofList levenshtein ["book", "books", "cook", "booze", "cake"] =
    some (.node "book" [(1, .node "books" [(2, .node "cook" [])]),
      (2, .node "booze" []), (4, .node "cake" [])]) := rfl

theorem query_demo : query levenshtein "book" 1
    (ofList levenshtein ["book", "books", "cook", "booze", "cake"]) =
    some [(0, "book"), (1, "books"), (1, "cook")] := by
  have hb : ("books" : String) ≤ "cook" := by
    rw [String.le_iff_toList_le]; decide
  rw [ofList_demo, query, qrDemo_root]
  simp [sortPairs, List.insertionSort, List.orderedInsert, pairLE, hb]

theorem digitVal_digitChar : ∀ d < 10, digitVal (Nat.digitChar d) = some d := by decide

theorem mapM_digitVal_digitChar : ∀ ds : List Nat, (∀ d ∈ ds, d < 10) →
    (ds.map Nat.digitChar).mapM digitVal = some ds := by
  intro ds
  induction ds with
  | nil => intro _; rfl
  | cons d rest ih =>
      intro h
      rw [List.map_cons, List.mapM_cons, digitVal_digitChar d (h d (List.mem_cons_self _ _)),
        ih (fun x hx => h x (List.mem_cons_of_mem _ hx))]
      rfl

theorem parseNatStr_ne_nil {s : String} (h : s.data ≠ []) :
    parseNatStr s = (s.data.mapM digitVal).map (fun ds => Nat.ofDigits 10 ds.reverse) := by
  rw [parseNatStr]
  split
  · rename_i heq
    exact absurd heq h
  · rfl

/-- Decimal stringification of a natural number parses back to the same
number: the key round trip of the persistence format. -/
theorem parseNatStr_natStr (k : Nat) : parseNatStr (natStr k) = some k := by
  by_cases hk : k = 0
  · subst hk
    decide
  · have hdig : Nat.digits 10 k ≠ [] := Nat.digits_ne_nil_iff_ne_zero.mpr hk
    have hdata : (natStr k).data = (Nat.digits 10 k).reverse.map Nat.digitChar := by
      rw [natStr, if_neg hk]
    have hne : (natStr k).data ≠ [] := by
      rw [hdata]
      simp [hdig]
    rw [parseNatStr_ne_nil hne, hdata,
      mapM_digitVal_digitChar _ (fun d hd => Nat.digits_lt_base (by norm_num)
        (List.mem_reverse.mp hd))]
    simp [Nat.ofDigits_digits]

theorem parseChildren_dumpChildren (cs : List (Nat × Node String))
    (IH : ∀ kc ∈ cs, parseNode (dumpNode kc.2) = some kc.2) :
    parseChildren (dumpChildren cs) = some cs := by
  induction cs with
  | nil => rfl
  | cons kc rest ih =>
      obtain ⟨k, c⟩ := kc
      rw [dumpChildren, parseChildren, parseNatStr_natStr k,
        IH (k, c) (List.mem_cons_self _ _), ih (fun kc hm => IH kc (List.mem_cons_of_mem _ hm))]

/-- Serialising a node and reading it back reconstructs the node exactly. -/
theorem parseNode_dumpNode : ∀ t : Node String, parseNode (dumpNode t) = some t := by
  intro t
  induction t using Node.strongInd with
  | _ p cs IH =>
      rw [dumpNode, parseNode, parseChildren_dumpChildren cs IH]

/-- Saving with `save_to_file` followed by `load_from_file` reconstructs the stored tree:
the JSON round trip preserves the logical `(value, children)` nesting and the
decimal keys parse back to the same integers. -/
theorem parseTree_dumpTree : ∀ t : Tree String, parseTree (dumpTree t) = some t := by
  intro t
  cases t with
  | none => rfl
  | some nd =>
      cases nd with
      | node p cs =>
          have hp := parseNode_dumpNode (.node p cs)
          rw [dumpNode] at hp
          rw [dumpTree, dumpNode]
          simp [parseTree, hp]

/-- The discrete 0/1 metric on booleans: a genuine metric, used to instantiate
the metric-contract hypotheses on concrete inputs. -/
def dDisc (a b : Bool) : Nat := if a = b then 0 else 1

/-- C2: soundness of query results.  Every pair `(d, value)` returned by
`query(w, n)` and by `find(w, n)` satisfies `d <= n` and `d` is exactly the
metric distance between `w` and `value` (the source computes
`distance_func(candidate, item)` in `find`, so the documented symmetry of the
metric identifies the two argument orders). -/
theorem C2_soundness {α : Type} [LinearOrder α] (dist : α → α → Nat)
    (hsym : ∀ a b, dist a b = dist b a) (t : Tree α) (w : α) (n : Nat) :
    (∀ qs, query dist w n t = some qs → ∀ pr ∈ qs, pr.1 ≤ n ∧ pr.1 = dist w pr.2) ∧
      (∀ pr ∈ find dist w n t, pr.1 ≤ n ∧ pr.1 = dist w pr.2) := by
  constructor
  · intro qs hqs pr hpr
    cases t with
    | none => simp [query] at hqs
    | some nd =>
        rw [query] at hqs
        cases hqs
        have hmem : pr ∈ queryRec dist w n nd :=
          (List.perm_insertionSort pairLE _).mem_iff.mp hpr
        have h := mem_queryRec dist w n nd pr hmem
        exact ⟨h.2, h.1⟩
  · intro pr hpr
    cases t with
    | none => simp [find] at hpr
    | some nd =>
        rw [find] at hpr
        have hmem : pr ∈ findLoop dist w n [nd] :=
          (List.perm_insertionSort fstLE _).mem_iff.mp hpr
        have h := mem_findLoop dist w n [nd] pr hmem
        exact ⟨h.2, by rw [h.1, hsym]⟩

/-- Witness for C2 at the discrete metric on booleans. -/
theorem C2_soundness_witness :
    (∀ a b, dDisc a b = dDisc b a) ∧
      ((∀ qs, query dDisc true 0 (some (.node true [])) = some qs →
          ∀ pr ∈ qs, pr.1 ≤ 0 ∧ pr.1 = dDisc true pr.2) ∧
        (∀ pr ∈ find dDisc true 0 (some (.node true [])), pr.1 ≤ 0 ∧ pr.1 = dDisc true pr.2)) :=
  ⟨by decide, C2_soundness dDisc (by decide) (some (.node true [])) true 0⟩

/-- C4 counterexample: the claim says a colliding insert is silently dropped
and the tree left unchanged.  In the code the walk chains into the existing
child instead: inserting `"cook"` into the tree `{book: {1: books}}` (where
`levenshtein("cook", "book") = 1` collides with the key of `"books"`) stores
`"cook"` under `"books"` at key `2`, and `"cook"` is in the tree afterwards. -/
theorem C4_counterexample :
    ofList levenshtein ["book", "books"] = some (.node "book" [(1, .node "books" [])]) ∧
      add_word levenshtein (ofList levenshtein ["book", "books"]) "cook" =
        some (.node "book" [(1, .node "books" [(2, .node "cook" [])])]) ∧
      "cook" ∈ treeValues (add_word levenshtein (ofList levenshtein ["book", "books"]) "cook") := by
  refine ⟨rfl, rfl, ?_⟩
  decide

/-- C4 amended: when `add_word` meets an occupied distance key it descends
into that child and repeats, inserting the word at the first node of the chain
with a free key; the word is never dropped, and the tree always grows by
exactly one node holding the new word. -/
theorem C4_insert_chains {α : Type} (dist : α → α → Nat) (t : Tree α) (w : α) :
    (treeValues (add_word dist t w)).Perm (w :: treeValues t) ∧
      (treeValues (add_word dist t w)).length = (treeValues t).length + 1 := by
  have h := treeValues_add_word dist t w
  exact ⟨h, by rw [h.length_eq]; rfl⟩

/-- C5: on every reachable tree (any constructor call followed by any
sequence of `add_word` calls) with a symmetric metric, every node `N` with a
child `C` stored under key `d` satisfies `distance(N.value, C.value) = d`
exactly.  `query`/`find` do not modify the tree (see the frame theorem), so
the invariant is preserved by every operation. -/
theorem C5_child_key_invariant {α : Type} (dist : α → α → Nat)
    (hsym : ∀ a b, dist a b = dist b a) (t : Tree α) (hre : Reachable dist t) :
    ∀ nd, t = some nd → EdgeInv dist nd := by
  intro nd ht
  subst ht
  exact Inv_EdgeInv hsym nd (Reachable_TreeInv hre)

/-- Witness for C5 on a two-word tree over the discrete metric. -/
theorem C5_child_key_invariant_witness :
    (∀ a b, dDisc a b = dDisc b a) ∧ EdgeInv dDisc (.node true [(1, .node false [])]) := by
  constructor
  · decide
  · exact C5_child_key_invariant dDisc (by decide) (some (.node true [(1, .node false [])]))
      (Reachable.ofInit (Words.ofList [true, false]) _ rfl) _ rfl

/-- C6: the Levenshtein known values and the empty-string base case: the
distance of an empty string to any string is the length of the other. -/
theorem C6_levenshtein_known_values :
    levenshtein "kitten" "sitting" = 3 ∧ levenshtein "" "abc" = 3 ∧
      levenshtein "abc" "abc" = 0 ∧
      (∀ t : String, levenshtein "" t = t.length) ∧
      ∀ s : String, levenshtein s "" = s.length := by
  refine ⟨by decide, by decide, by decide, ?_, ?_⟩
  · intro t
    rw [levenshtein]
    by_cases h : ("" : String).data.length < t.data.length
    · rw [if_pos h, levAux, if_pos (show ("" : String).data.length = 0 from rfl)]
      rfl
    · rw [if_neg h]
      have h1 : ("" : String).data.length = 0 := rfl
      have h0 : t.data.length = 0 := by omega
      rw [levAux, if_pos h0]
      show ("" : String).data.length = t.length
      have h2 : t.length = t.data.length := rfl
      omega
  · intro s
    have h1 : ("" : String).data.length = 0 := rfl
    rw [levenshtein, if_neg (by omega), levAux, if_pos h1]
    rfl

/-- C7: round-trip persistence.  Serialisation followed by deserialisation
reconstructs the tree exactly, hence `query`/`find` behave identically on the
reloaded tree; on the demo word list the query result is the expected
`[(0, book), (1, books), (1, cook)]` sorted by ascending distance. -/
theorem C7_roundtrip_persistence :
    (∀ t : Tree String, parseTree (dumpTree t) = some t) ∧
      (∀ t t2 : Tree String, parseTree (dumpTree t) = some t2 →
        (∀ w n, query levenshtein w n t2 = query levenshtein w n t) ∧
          ∀ w n, find levenshtein w n t2 = find levenshtein w n t) ∧
      query levenshtein "book" 1 (ofList levenshtein ["book", "books", "cook", "booze", "cake"]) =
        some [(0, "book"), (1, "books"), (1, "cook")] := by
  refine ⟨parseTree_dumpTree, ?_, query_demo⟩
  intro t t2 h
  rw [parseTree_dumpTree t] at h
  cases h
  exact ⟨fun _ _ => rfl, fun _ _ => rfl⟩

/-- C8 counterexample: the claim says construction from any empty word source
(including an empty iterator) leaves `root = None`.  An exhausted iterator is
truthy in Python, so the constructor enters the seeding branch and `next(it)`
raises StopIteration instead. -/
theorem C8_counterexample :
    init levenshtein (Words.ofIter ([] : List String)) = .error .stopIteration ∧
      init levenshtein (Words.ofIter ([] : List String)) ≠ .ok none := by
  refine ⟨rfl, ?_⟩
  intro h
  rw [show init levenshtein (Words.ofIter ([] : List String)) = .error .stopIteration from rfl] at h
  exact Except.noConfusion h

/-- C8 amended: constructing from an empty sized source (the empty list, or
the default argument `list()`) succeeds and leaves the explicit empty state
`root = None`; constructing from an empty iterator raises StopIteration. -/
theorem C8_empty_source {α : Type} (dist : α → α → Nat) :
    init dist (Words.ofList ([] : List α)) = .ok none ∧
      init dist (Words.ofIter ([] : List α)) = .error .stopIteration :=
  ⟨rfl, rfl⟩

/-- C9: `query` and `find` are non-mutating: run as methods on the object
state `self.tree`, they return their result and leave the state (hence the
entire node graph, which the state owns) exactly as it was.  Their bodies
contain no assignment to `self.tree` and no dict mutation (only
`children.get` and `children.items` reads), which the state-passing
translation makes explicit. -/
theorem C9_queries_non_mutating {α : Type} [LinearOrder α] (dist : α → α → Nat)
    (w item : α) (n m : Nat) (t : Tree α) :
    ((queryMethod dist w n).run t).2 = t ∧ ((findMethod dist item m).run t).2 = t :=
  ⟨rfl, rfl⟩

/-- C1: completeness of the pruned search.  For every reachable tree over a
metric satisfying symmetry and the triangle inequality, every stored word `s`
and query word `w` with radius `n >= dist(w, s)`, the pair `(dist(w, s), s)`
appears in the result of `query(w, n)`: the pruning window `[d - n, d + n]`
never drops a true match. -/
theorem C1_query_completeness {α : Type} [LinearOrder α] [DecidableEq α]
    (dist : α → α → Nat)
    (hsym : ∀ a b, dist a b = dist b a)
    (htri : ∀ a b c, dist a c ≤ dist a b + dist b c)
    (t : Tree α) (hre : Reachable dist t) (s w : α) (n : Nat)
    (hs : s ∈ treeValues t) (hn : dist w s ≤ n) :
    ∃ qs, query dist w n t = some qs ∧ (dist w s, s) ∈ qs := by
  cases t with
  | none => simp [treeValues] at hs
  | some nd =>
      refine ⟨sortPairs (queryRec dist w n nd), rfl, ?_⟩
      have hinv : Inv dist nd := Reachable_TreeInv hre
      rw [treeValues] at hs
      have hcount := count_values_le_queryRec hsym htri w s n hn nd hinv
      have hpos : 0 < nd.values.count s := List.count_pos_iff.mpr hs
      have hq : 0 < (queryRec dist w n nd).count (dist w s, s) :=
        Nat.lt_of_lt_of_le hpos hcount
      have hsp : (sortPairs (queryRec dist w n nd)).count (dist w s, s) =
          (queryRec dist w n nd).count (dist w s, s) :=
        perm_count (List.perm_insertionSort pairLE _) _
      exact List.count_pos_iff.mp (by rw [sortPairs] at hsp ⊢; omega)

/-- Witness for C1 on a one-word tree over the discrete metric. -/
theorem C1_query_completeness_witness :
    (∀ a b, dDisc a b = dDisc b a) ∧ (∀ a b c, dDisc a c ≤ dDisc a b + dDisc b c) ∧
      true ∈ treeValues (some (Node.node true [])) ∧ dDisc true true ≤ 0 ∧
      ∃ qs, query dDisc true 0 (some (.node true [])) = some qs ∧
        (dDisc true true, true) ∈ qs :=
  ⟨by decide, by decide, by decide, by decide,
    C1_query_completeness dDisc (by decide) (by decide) (some (.node true []))
      (Reachable.ofInit (Words.ofList [true]) _ rfl) true true 0 (by decide) (by decide)⟩

/-- C3 counterexample: the claim extends query/find equivalence to the empty
tree, but on `root = None` the body of `query` unpacks `None` and raises a
TypeError (modelled by `none`) while `find` returns `[]`. -/
theorem C3_counterexample :
    query levenshtein "a" 0 (none : Tree String) = none ∧
      find levenshtein "a" 0 (none : Tree String) = [] :=
  ⟨rfl, rfl⟩

/-- C3 amended: on every reachable NON-empty tree with a symmetric metric,
`query(w, n)` succeeds and returns the same multiset (hence the same set) of
`(distance, value)` pairs as `find(w, n)`, and both lists are sorted in
ascending order of distance.  (On the empty tree `find` returns `[]` while
`query` raises, see the counterexample.) -/
theorem C3_query_find_equivalence {α : Type} [LinearOrder α] (dist : α → α → Nat)
    (hsym : ∀ a b, dist a b = dist b a) (t : Tree α) (hre : Reachable dist t)
    (nd : Node α) (ht : t = some nd) (w : α) (n : Nat) :
    ∃ qs, query dist w n t = some qs ∧ qs.Perm (find dist w n t) ∧
      (∀ pr : Nat × α, pr ∈ qs ↔ pr ∈ find dist w n t) ∧
      (qs.map Prod.fst).Sorted (· ≤ ·) ∧
      ((find dist w n t).map Prod.fst).Sorted (· ≤ ·) := by
  subst ht
  have hinv : Inv dist nd := Reachable_TreeInv hre
  refine ⟨sortPairs (queryRec dist w n nd), rfl, ?_, ?_, ?_, ?_⟩
  case _ =>
    rw [find]
    have h2 := findLoop_perm hsym w n [nd] (by
      intro t0 ht0
      rcases List.mem_singleton.mp ht0 with rfl
      exact hinv)
    have h3 : (findLoop dist w n [nd]).Perm (queryRec dist w n nd) := by
      refine h2.trans ?_
      simp
    exact ((List.perm_insertionSort pairLE _).trans h3.symm).trans
      (List.perm_insertionSort fstLE _).symm
  case _ =>
    intro pr
    have hperm : (sortPairs (queryRec dist w n nd)).Perm (find dist w n nd) := by
      rw [find]
      have h2 := findLoop_perm hsym w n [nd] (by
        intro t0 ht0
        rcases List.mem_singleton.mp ht0 with rfl
        exact hinv)
      have h3 : (findLoop dist w n [nd]).Perm (queryRec dist w n nd) := by
        refine h2.trans ?_
        simp
      exact ((List.perm_insertionSort pairLE _).trans h3.symm).trans
        (List.perm_insertionSort fstLE _).symm
    exact hperm.mem_iff
  case _ => exact sortPairs_sorted_fst _
  case _ => exact find_sorted_fst dist w n (some nd)

/-- Witness for C3 on a one-word tree over the discrete metric. -/
theorem C3_query_find_equivalence_witness :
    (∀ a b, dDisc a b = dDisc b a) ∧
      ∃ qs, query dDisc false 1 (some (.node true [])) = some qs ∧
        qs.Perm (find dDisc false 1 (some (.node true []))) ∧
        (∀ pr : Nat × Bool, pr ∈ qs ↔ pr ∈ find dDisc false 1 (some (.node true []))) ∧
        (qs.map Prod.fst).Sorted (· ≤ ·) ∧
        ((find dDisc false 1 (some (.node true []))).map Prod.fst).Sorted (· ≤ ·) :=
  ⟨by decide, C3_query_find_equivalence dDisc (by decide) (some (.node true []))
    (Reachable.ofInit (Words.ofList [true]) _ rfl) _ rfl false 1⟩

/-- C10: re-inserting a stored word is never a no-op.  `add_word(w)` on a tree
already containing `w` follows the earlier insertion path down distance keys
until a free key and adds one more node holding `w` (first conjunct: the
stored multiset grows by `w`), and a subsequent `query(w, n)` with the metric
axioms returns the pair `(0, w)` at least twice. -/
theorem C10_reinsert_duplicates {α : Type} [LinearOrder α] [DecidableEq α]
    (dist : α → α → Nat)
    (hsym : ∀ a b, dist a b = dist b a)
    (htri : ∀ a b c, dist a c ≤ dist a b + dist b c)
    (hrefl : ∀ a, dist a a = 0)
    (t : Tree α) (hre : Reachable dist t) (w : α) (hw : w ∈ treeValues t) (n : Nat) :
    (treeValues (add_word dist t w)).Perm (w :: treeValues t) ∧
      ∃ qs, query dist w n (add_word dist t w) = some qs ∧ 2 ≤ qs.count (0, w) := by
  refine ⟨treeValues_add_word dist t w, ?_⟩
  cases t with
  | none => simp [treeValues] at hw
  | some nd =>
      refine ⟨sortPairs (queryRec dist w n (addToNode dist w nd)), rfl, ?_⟩
      have hre2 : Reachable dist (add_word dist (some nd) w) := Reachable.step _ w hre
      have hinv2 : Inv dist (addToNode dist w nd) := Reachable_TreeInv hre2
      have hle : dist w w ≤ n := by rw [hrefl w]; exact Nat.zero_le n
      have hcount := count_values_le_queryRec hsym htri w w n hle (addToNode dist w nd) hinv2
      rw [treeValues] at hw
      have hc2 : 2 ≤ (addToNode dist w nd).values.count w := by
        rw [perm_count (values_addToNode dist w nd) w, List.count_cons_self]
        have hpos : 0 < nd.values.count w := List.count_pos_iff.mpr hw
        omega
      have hsp : (sortPairs (queryRec dist w n (addToNode dist w nd))).count (dist w w, w) =
          (queryRec dist w n (addToNode dist w nd)).count (dist w w, w) :=
        perm_count (List.perm_insertionSort pairLE _) _
      rw [show ((0 : Nat), w) = (dist w w, w) from by rw [hrefl w]]
      rw [hsp]
      exact le_trans hc2 hcount

/-- Witness for C10 on a one-word tree over the discrete metric. -/
theorem C10_reinsert_duplicates_witness :
    (∀ a b, dDisc a b = dDisc b a) ∧ (∀ a b c, dDisc a c ≤ dDisc a b + dDisc b c) ∧
      (∀ a, dDisc a a = 0) ∧ true ∈ treeValues (some (Node.node true [])) ∧
      ((treeValues (add_word dDisc (some (.node true [])) true)).Perm
          (true :: treeValues (some (.node true []))) ∧
        ∃ qs, query dDisc true 3 (add_word dDisc (some (.node true [])) true) = some qs ∧
          2 ≤ qs.count (0, true)) :=
  ⟨by decide, by decide, by decide, by decide,
    C10_reinsert_duplicates dDisc (by decide) (by decide) (by decide)
      (some (.node true [])) (Reachable.ofInit (Words.ofList [true]) _ rfl) true (by decide) 3⟩
